import Mathlib

/-!
Shallow embedding of `src/parser.rs` (huozi-rs): a nom-based parser for a
BBCode-like markup language.  Inputs are `List Char`; a parser returns
either `.ok rest val` (nom `Ok`), `.err` (nom `Err::Error`, a soft,
recoverable non-match) or `.fail` (nom `Err::Failure`, a fatal failure
produced by `cut`).  The recursive `element`/`elements` cycle of the
grammar is embedded with a fuel parameter; fuel `length input + 1` is
always sufficient because every nested `block` first consumes the `[` of
its tag head, and a fuel-monotonicity lemma shows the result is stable
for any sufficient fuel.
-/

namespace Huozi

abbrev Str := List Char

inductive PResult (α : Type) : Type where
  | ok (rest : Str) (val : α)
  | err
  | fail
deriving DecidableEq

abbrev Parser (α : Type) := Str → PResult α

/-- nom `char(c)`. -/
def charP (c : Char) : Parser Char := fun l =>
  match l with
  | [] => .err
  | d :: rest => if d = c then .ok rest c else .err

/-- nom `tag(s)` (complete). -/
def tagP (s : Str) : Parser Str := fun l =>
  if s.isPrefixOf l then .ok (l.drop s.length) s else .err

def isSpaceChar (c : Char) : Bool := c = ' ' || c = '\t' || c = '\n' || c = '\r'

/-- nom `multispace0`: consumes the maximal run of spaces, tabs, newlines
and carriage returns; always succeeds, returning the consumed span. -/
def multispace0 : Parser Str := fun l =>
  .ok (l.dropWhile isSpaceChar) (l.takeWhile isSpaceChar)

/-- nom `is_not(bad)` (complete): the maximal nonempty run of characters
not in `bad`; a soft error if that run is empty. -/
def is_notP (bad : Str) : Parser Str := fun l =>
  let t := l.takeWhile (fun c => decide (c ∉ bad))
  if t.isEmpty then .err else .ok (l.dropWhile (fun c => decide (c ∉ bad))) t

/-- The characters that terminate a normal run in `escaped_str`
(`r#""\[]/="#` in the source). -/
def escapedChars : Str := ['"', '\\', '[', ']', '/', '=']

/-- The characters allowed after a backslash in `escaped_str`
(`r#""\n[]/="#` in the source: quote, backslash, the letter n, brackets,
slash, equals). -/
def escapableChars : Str := ['"', '\\', 'n', '[', ']', '/', '=']

/-- The loop of nom `escaped(is_not(escapedChars), '\\', one_of(escapableChars))`,
returning the number of characters consumed (`none` = soft error).
`atStart` records whether nothing has been consumed yet: nom's `escaped`
errors on a leading special character, but stops (successfully) on a
special character after at least one consumed character; a dangling
backslash or a backslash before a non-escapable character errors at any
position. -/
def escapedCount : Bool → Str → Option Nat
  | _, [] => some 0
  | atStart, c :: rest =>
    if c ∈ escapedChars then
      if c = '\\' then
        match rest with
        | [] => none
        | d :: rest2 =>
          if d ∈ escapableChars then (escapedCount false rest2).map (· + 2)
          else none
      else if atStart then none else some 0
    else (escapedCount false rest).map (· + 1)

/-- `escaped_str` from the source: nom
`escaped(is_not(r#""\[]/="#), '\\', one_of(r#""\n[]/="#))`. -/
def escaped_str : Parser Str := fun l =>
  match escapedCount true l with
  | none => .err
  | some k => .ok (l.drop k) (l.take k)

def pmap (p : Parser α) (f : α → β) : Parser β := fun l =>
  match p l with
  | .ok r v => .ok r (f v)
  | .err => .err
  | .fail => .fail

/-- nom `alt` with two alternatives: a soft error in the first tries the
second; a fatal failure propagates. -/
def alt2 (p q : Parser α) : Parser α := fun l =>
  match p l with
  | .err => q l
  | r => r

def alt3 (p q r : Parser α) : Parser α := alt2 p (alt2 q r)

/-- nom `cut`: promotes a soft error to a fatal failure. -/
def cutP (p : Parser α) : Parser α := fun l =>
  match p l with
  | .err => .fail
  | r => r

def precededP (p : Parser α) (q : Parser β) : Parser β := fun l =>
  match p l with
  | .ok r _ => q r
  | .err => .err
  | .fail => .fail

def terminatedP (p : Parser α) (q : Parser β) : Parser α := fun l =>
  match p l with
  | .ok r v =>
    match q r with
    | .ok r2 _ => .ok r2 v
    | .err => .err
    | .fail => .fail
  | .err => .err
  | .fail => .fail

def separated_pairP (p : Parser α) (s : Parser γ) (q : Parser β) :
    Parser (α × β) := fun l =>
  match p l with
  | .ok r1 a =>
    match s r1 with
    | .ok r2 _ =>
      match q r2 with
      | .ok r3 b => .ok r3 (a, b)
      | .err => .err
      | .fail => .fail
    | .err => .err
    | .fail => .fail
  | .err => .err
  | .fail => .fail

def tuple3P (p : Parser α) (q : Parser β) (r : Parser γ) :
    Parser (α × β × γ) := fun l =>
  match p l with
  | .ok l1 a =>
    match q l1 with
    | .ok l2 b =>
      match r l2 with
      | .ok l3 c => .ok l3 (a, b, c)
      | .err => .err
      | .fail => .fail
    | .err => .err
    | .fail => .fail
  | .err => .err
  | .fail => .fail

/-- nom `not`: succeeds (consuming nothing) when the inner parser softly
errors, softly errors when it succeeds, propagates a fatal failure. -/
def notP (p : Parser α) : Parser Unit := fun l =>
  match p l with
  | .ok _ _ => .err
  | .err => .ok l ()
  | .fail => .fail

/-- nom `verify`. -/
def verifyP (p : Parser α) (f : α → Bool) : Parser α := fun l =>
  match p l with
  | .ok r v => if f v then .ok r v else .err
  | .err => .err
  | .fail => .fail

/-- nom `eof`: succeeds exactly on empty input, returning it. -/
def eofP : Parser Str := fun l => if l.isEmpty then .ok l l else .err

/-- The element tree (`Element` and `Block` from the source, with the
`Block` struct inlined into the constructor: tag, value, inner). -/
inductive Element : Type where
  | Text (s : Str)
  | Block (tag : Str) (value : Option Str) (inner : List Element)
  | EOF

/-- `string_quoted` from the source:
`preceded(char('"'), cut(terminated(escaped_str, char('"'))))`. -/
def string_quoted : Parser Str :=
  precededP (charP '"') (cutP (terminatedP escaped_str (charP '"')))

/-- The excluded characters of `string_without_space`
(`"\"\\[]/= \t\n\r"` in the source). -/
def swsChars : Str := ['"', '\\', '[', ']', '/', '=', ' ', '\t', '\n', '\r']

/-- `string_without_space` from the source:
`preceded(multispace0, is_not("\"\\[]/= \t\n\r"))`. -/
def string_without_space : Parser Str := precededP multispace0 (is_notP swsChars)

/-- `plain_text` from the source: `map(escaped_str, Element::Text)`. -/
def plain_text : Parser Element := pmap escaped_str (fun s => .Text s)

/-- `tag_key` from the source. -/
def tag_key : Parser Str := string_without_space

/-- `tag_value` from the source: `alt((string_without_space, string_quoted))`. -/
def tag_value : Parser Str := alt2 string_without_space string_quoted

/-- `tag_head_keypair` from the source. -/
def tag_head_keypair : Parser (Str × Option Str) :=
  alt2
    (pmap
      (separated_pairP (precededP multispace0 tag_key)
        (precededP multispace0 (charP '='))
        (precededP multispace0 tag_value))
      (fun kv => (kv.1, some kv.2)))
    (pmap (precededP multispace0 tag_key) (fun s => (s, none)))

/-- `tag_head` from the source:
`preceded(tuple((char('['), not(char('/')))), cut(terminated(tag_head_keypair, preceded(multispace0, char(']')))))`. -/
def tag_head : Parser (Str × Option Str) :=
  precededP (terminatedP (charP '[') (notP (charP '/')))
    (cutP (terminatedP tag_head_keypair (precededP multispace0 (charP ']'))))

/-- `tag_end` from the source:
`preceded(tag("[/"), cut(terminated(tag_value, preceded(multispace0, char(']')))))`. -/
def tag_end : Parser Str :=
  precededP (tagP ['[', '/'])
    (cutP (terminatedP tag_value (precededP multispace0 (charP ']'))))

/-- nom `many0(p)` with a fuel bound: stops on a soft error, propagates a
fatal failure, and errors itself when the inner parser succeeds without
consuming input (nom's infinite-loop check). Fuel `length input + 1` is
sufficient, since every accumulated step strictly consumes. -/
def many0Go (p : Parser α) : Nat → Parser (List α)
  | 0, _ => .err
  | fuel + 1, l =>
    match p l with
    | .err => .ok l []
    | .fail => .fail
    | .ok r v =>
      if r.length = l.length then .err
      else
        match many0Go p fuel r with
        | .ok r2 vs => .ok r2 (v :: vs)
        | .err => .err
        | .fail => .fail

/-- `elements` from the source (`many0(element)`), abstracted over the
element parser. -/
def elementsP (p : Parser Element) : Parser (List Element) := fun l =>
  many0Go p (l.length + 1) l

/-- `closed_tag` from the source, abstracted over the element parser:
`map(verify(tuple((tag_head, elements, tag_end)), head_key == end_key), ...)`. -/
def closed_tagP (p : Parser Element) : Parser (Str × Option Str × List Element) :=
  pmap
    (verifyP (tuple3P tag_head (elementsP p) tag_end)
      (fun x => x.1.1 == x.2.2))
    (fun x => (x.1.1, x.1.2, x.2.1))

/-- `block` from the source, abstracted over the element parser. -/
def blockP (p : Parser Element) : Parser Element :=
  pmap (closed_tagP p) (fun x => .Block x.1 x.2.1 x.2.2)

/-- The `map(eof, |_| Element::EOF)` alternative of `element`. -/
def eofElem : Parser Element := pmap eofP (fun _ => .EOF)

/-- `element` from the source with a fuel bound on the recursion through
nested blocks: `alt((map(eof, EOF), plain_text, block))`. -/
def elementF : Nat → Parser Element
  | 0 => fun _ => .fail
  | n + 1 => alt3 eofElem plain_text (blockP (elementF n))

/-- nom `many_till(p, eof)` with a fuel bound: the terminator `eof` is
tried first at every position, so the loop stops as soon as the input is
exhausted. -/
def manyTillEof (p : Parser α) : Nat → Parser (List α)
  | 0, _ => .err
  | fuel + 1, l =>
    if l.isEmpty then .ok l []
    else
      match p l with
      | .err => .err
      | .fail => .fail
      | .ok r v =>
        if r.length = l.length then .err
        else
          match manyTillEof p fuel r with
          | .ok r2 vs => .ok r2 (v :: vs)
          | .err => .err
          | .fail => .fail

/-- `element` at its canonical (always sufficient) fuel. -/
def element (l : Str) : PResult Element := elementF (l.length + 1) l

/-- `elements` at its canonical fuel. -/
def elements (l : Str) : PResult (List Element) :=
  elementsP (elementF (l.length + 1)) l

/-- `closed_tag` at its canonical fuel. -/
def closed_tag (l : Str) : PResult (Str × Option Str × List Element) :=
  closed_tagP (elementF (l.length + 1)) l

/-- `block` at its canonical fuel. -/
def block (l : Str) : PResult Element :=
  blockP (elementF (l.length + 1)) l

/-- `parse` from the source, the public entry point:
`many_till(element, eof)`. -/
def parse (l : Str) : PResult (List Element) :=
  manyTillEof (elementF (l.length + 1)) (l.length + 1) l

/-- A run of the text-escaping lexicon with no unescaped special
character: ordinary characters outside the special set, interspersed
with backslash escapes whose target is an escapable character. -/
def PlainTok : Str → Bool
  | [] => true
  | c :: rest =>
    if c = '\\' then
      match rest with
      | [] => false
      | d :: rest2 => decide (d ∈ escapableChars) && PlainTok rest2
    else decide (c ∉ escapedChars) && PlainTok rest

mutual
/-- The element contains no `EOF` sentinel, recursively. -/
inductive EOFFreeEl : Element → Prop where
  | text (s : Str) : EOFFreeEl (.Text s)
  | block (t : Str) (v : Option Str) (inner : List Element) :
      EOFFreeList inner → EOFFreeEl (.Block t v inner)

/-- No element of the list contains an `EOF` sentinel, recursively. -/
inductive EOFFreeList : List Element → Prop where
  | nil : EOFFreeList []
  | cons {e : Element} {es : List Element} :
      EOFFreeEl e → EOFFreeList es → EOFFreeList (e :: es)
end

/-- A string of whitespace characters (as skipped by `multispace0`). -/
def WS (s : Str) : Prop := ∀ c ∈ s, isSpaceChar c = true

/-- A rendering of a value token: either the bare span or the span
surrounded by double quotes. -/
def ValR (v s : Str) : Prop := s = v ∨ s = '"' :: v ++ ['"']

/-- The strings consumed by `tag_head` that produce `(k, v)`: an opening
bracket, then the key, an optional `=` and (possibly quoted) value, and
a closing bracket, with optional whitespace around the tokens. -/
def HeadR (k : Str) (v : Option Str) (s : Str) : Prop :=
  match v with
  | none => ∃ w1 w2, WS w1 ∧ WS w2 ∧ s = '[' :: (w1 ++ k ++ w2 ++ [']'])
  | some val => ∃ w1 w2 w3 w4 vr, WS w1 ∧ WS w2 ∧ WS w3 ∧ WS w4 ∧
      ValR val vr ∧
      s = '[' :: (w1 ++ k ++ w2 ++ '=' :: (w3 ++ vr ++ w4 ++ [']']))

/-- The strings consumed by `tag_end` that produce the closing name `k`:
`[/`, then the (possibly quoted) name and a closing bracket, with
optional whitespace around the tokens. -/
def TailR (k : Str) (s : Str) : Prop :=
  ∃ w1 w2 nr, WS w1 ∧ WS w2 ∧ ValR k nr ∧
    s = '[' :: '/' :: (w1 ++ nr ++ w2 ++ [']'])

mutual
/-- The element renders to the string: a `Text` contributes its span
verbatim, a `Block` contributes a tag head, its children's renderings
and a tag tail, and the `EOF` sentinel contributes nothing. -/
inductive REl : Element → Str → Prop where
  | text (s : Str) : REl (.Text s) s
  | eof : REl .EOF []
  | block {k : Str} {v : Option Str} {inner : List Element}
      {h m t : Str} :
      HeadR k v h → RList inner m → TailR k t →
      REl (.Block k v inner) (h ++ m ++ t)

/-- The element list renders to the string, concatenating in order. -/
inductive RList : List Element → Str → Prop where
  | nil : RList [] []
  | cons {e : Element} {es : List Element} {s t : Str} :
      REl e s → RList es t → RList (e :: es) (s ++ t)
end

/-- The strict head rendering named by the round-trip claim: exactly
`[tag]`, `[tag=value]` or `[tag="value"]`, with no whitespace. -/
def StrictHeadR (k : Str) (v : Option Str) (s : Str) : Prop :=
  match v with
  | none => s = '[' :: (k ++ [']'])
  | some val => s = '[' :: (k ++ '=' :: (val ++ [']'])) ∨
      s = '[' :: (k ++ '=' :: '"' :: (val ++ ['"', ']']))

mutual
/-- The rendering relation asserted by the round-trip claim as stated:
each `Block` is wrapped in an opening `[tag]`, `[tag=value]` or
`[tag="value"]` head and a closing `[/tag]` tail, with no whitespace. -/
inductive SREl : Element → Str → Prop where
  | text (s : Str) : SREl (.Text s) s
  | eof : SREl .EOF []
  | block {k : Str} {v : Option Str} {inner : List Element}
      {h m : Str} :
      StrictHeadR k v h → SRList inner m →
      SREl (.Block k v inner) (h ++ m ++ ('[' :: '/' :: (k ++ [']'])))

/-- Strict rendering of an element list, concatenating in order. -/
inductive SRList : List Element → Str → Prop where
  | nil : SRList [] []
  | cons {e : Element} {es : List Element} {s t : Str} :
      SREl e s → SRList es t → SRList (e :: es) (s ++ t)
end

theorem escapedCount_special_start {c : Char} (hc : c ∈ escapedChars)
    (hb : c ≠ '\\') (rest : Str) : escapedCount true (c :: rest) = none := by
  unfold escapedCount
  simp [hc, hb]

theorem escapedCount_special_mid {c : Char} (hc : c ∈ escapedChars)
    (hb : c ≠ '\\') (rest : Str) : escapedCount false (c :: rest) = some 0 := by
  unfold escapedCount
  simp [hc, hb]

theorem escapedCount_normal {c : Char} (hc : c ∉ escapedChars) (b : Bool)
    (rest : Str) :
    escapedCount b (c :: rest) = (escapedCount false rest).map (· + 1) := by
  conv_lhs => unfold escapedCount
  simp [hc]

theorem escapedCount_esc {d : Char} (hd : d ∈ escapableChars) (b : Bool)
    (rest : Str) :
    escapedCount b ('\\' :: d :: rest) = (escapedCount false rest).map (· + 2) := by
  conv_lhs => unfold escapedCount
  simp [hd, show ('\\' : Char) ∈ escapedChars from by decide]

theorem escapedCount_esc_bad {d : Char} (hd : d ∉ escapableChars) (b : Bool)
    (rest : Str) : escapedCount b ('\\' :: d :: rest) = none := by
  unfold escapedCount
  simp [hd, show ('\\' : Char) ∈ escapedChars from by decide]

/-- C1: parsing `ssf[xx="123"]aaa[/xx]` with the public entry point
succeeds and returns exactly the two-element sequence
`[Text "ssf", Block (tag "xx") (value some "123") [Text "aaa"]]`; the
quoted value is returned without its surrounding quotes. -/
theorem claim_C1 :
    parse "ssf[xx=\"123\"]aaa[/xx]".toList =
      .ok [] [.Text "ssf".toList,
        .Block "xx".toList (some "123".toList) [.Text "aaa".toList]] := rfl

/-- C3: parsing `[xx="123]` is a fatal (non-recoverable) failure, not a
soft non-match that would let the fragment be treated as plain text; in
particular `string_quoted` itself fails fatally on the unterminated
quote once the opening quote has been consumed. -/
theorem claim_C3 :
    parse "[xx=\"123]".toList = .fail ∧
    string_quoted "\"123]".toList = .fail :=
  ⟨rfl, rfl⟩

/-- C7: parsing `[ foo = "bar " ]text[/ foo  ]` succeeds and yields one
block with tag `foo`, value `some "bar "` (the trailing space inside the
quotes preserved) and children `[Text "text"]`: whitespace around the
head and tail tokens is skipped and never enters the name or the quoted
value. -/
theorem claim_C7 :
    parse "[ foo = \"bar \" ]text[/ foo  ]".toList =
      .ok [] [.Block "foo".toList (some "bar ".toList)
        [.Text "text".toList]] := rfl

/-- C8: parsing `[foo=bar][xx=123][/xx][/foo]` succeeds and yields
exactly one block, tag `foo` value `some "bar"`, whose children are
exactly one block, tag `xx` value `some "123"`, with an empty (not
absent) children sequence. -/
theorem claim_C8 :
    parse "[foo=bar][xx=123][/xx][/foo]".toList =
      .ok [] [.Block "foo".toList (some "bar".toList)
        [.Block "xx".toList (some "123".toList) []]] := rfl

/-- C10: an empty quoted value is rejected: after any opening quote an
immediately following closing quote fails `string_quoted` (and hence
`tag_value`) fatally, because the opening quote has committed the parse
and the body must be a nonempty run of the text-escaping lexicon; in
particular parsing `[foo=""]text[/foo]` fails as a whole. -/
theorem claim_C10 (rest : Str) :
    string_quoted ('"' :: '"' :: rest) = .fail ∧
    tag_value ('"' :: '"' :: rest) = .fail ∧
    parse "[foo=\"\"]text[/foo]".toList = .fail := by
  have h1 : escapedCount true ('"' :: rest) = none :=
    escapedCount_special_start (by decide) (by decide) rest
  have h2 : string_without_space ('"' :: '"' :: rest) = .err := by
    simp [string_without_space, precededP, multispace0, is_notP,
      List.dropWhile, List.takeWhile, isSpaceChar, swsChars]
  refine ⟨?_, ?_, rfl⟩
  · simp [string_quoted, precededP, charP, cutP, terminatedP, escaped_str, h1]
  · simp [tag_value, alt2, h2, string_quoted, precededP, charP, cutP,
      terminatedP, escaped_str, h1]

/-- Witness for C10 at the empty remainder. -/
theorem claim_C10_witness :
    string_quoted ('"' :: '"' :: []) = .fail ∧
    tag_value ('"' :: '"' :: []) = .fail ∧
    parse "[foo=\"\"]text[/foo]".toList = .fail := claim_C10 []

theorem SRList_nil_inv {s : Str} (h : SRList [] s) : s = [] := by
  cases h; rfl

theorem SRList_cons_inv {e : Element} {es : List Element} {s : Str}
    (h : SRList (e :: es) s) :
    ∃ a b, SREl e a ∧ SRList es b ∧ s = a ++ b := by
  cases h with
  | cons h1 h2 => exact ⟨_, _, h1, h2, rfl⟩

theorem SREl_text_inv {t s : Str} (h : SREl (.Text t) s) : s = t := by
  cases h; rfl

theorem SREl_block_inv {k : Str} {v : Option Str} {inner : List Element}
    {s : Str} (h : SREl (.Block k v inner) s) :
    ∃ a m, StrictHeadR k v a ∧ SRList inner m ∧
      s = a ++ m ++ ('[' :: '/' :: (k ++ [']'])) := by
  cases h with
  | block h1 h2 => exact ⟨_, _, h1, h2, rfl⟩

theorem WS_nil : WS [] := fun c hc => by cases hc

theorem WS_append {a b : Str} (ha : WS a) (hb : WS b) : WS (a ++ b) := by
  intro c hc
  rcases List.mem_append.mp hc with h | h
  · exact ha c h
  · exact hb c h

theorem WS_takeWhile (l : Str) : WS (l.takeWhile isSpaceChar) :=
  fun _ hc => List.mem_takeWhile_imp hc

theorem space_split (l : Str) :
    l = l.takeWhile isSpaceChar ++ l.dropWhile isSpaceChar :=
  (List.takeWhile_append_dropWhile isSpaceChar l).symm

theorem charP_ok {c : Char} {l r : Str} {v : Char}
    (h : charP c l = .ok r v) : l = c :: r := by
  cases l with
  | nil => simp [charP] at h
  | cons d rest =>
    simp only [charP] at h
    split at h
    · next hd =>
      cases h
      rw [hd]
    · cases h

theorem tagP_ok {s l r v : Str} (h : tagP s l = .ok r v) : l = s ++ r := by
  simp only [tagP] at h
  split at h
  · next hp =>
    cases h
    obtain ⟨t, ht⟩ := List.isPrefixOf_iff_prefix.mp hp
    subst ht
    rw [List.drop_left]
  · cases h

theorem multispace0_ok {l r w : Str} (h : multispace0 l = .ok r w) :
    l = w ++ r ∧ WS w := by
  simp only [multispace0] at h
  cases h
  exact ⟨space_split l, WS_takeWhile l⟩

theorem is_notP_ok {bad l r v : Str} (h : is_notP bad l = .ok r v) :
    l = v ++ r ∧ v ≠ [] := by
  simp only [is_notP] at h
  split at h
  · cases h
  · next hne =>
    cases h
    refine ⟨(List.takeWhile_append_dropWhile _ l).symm, ?_⟩
    simpa [List.isEmpty_iff] using hne

theorem escaped_str_ok {l r v : Str} (h : escaped_str l = .ok r v) :
    l = v ++ r := by
  simp only [escaped_str] at h
  cases hk : escapedCount true l with
  | none => rw [hk] at h; cases h
  | some k =>
    rw [hk] at h
    cases h
    exact (List.take_append_drop k l).symm

theorem eofP_ok {l r v : Str} (h : eofP l = .ok r v) : l = [] ∧ r = [] := by
  simp only [eofP] at h
  split at h
  · next he =>
    cases h
    simp_all [List.isEmpty_iff]
  · cases h

theorem string_quoted_ok {l r v : Str} (h : string_quoted l = .ok r v) :
    l = '"' :: (v ++ '"' :: r) := by
  simp only [string_quoted, precededP, cutP, terminatedP] at h
  cases h1 : charP '"' l with
  | ok r1 c1 =>
    simp only [h1] at h
    cases h2 : escaped_str r1 with
    | ok r2 v2 =>
      simp only [h2] at h
      cases h3 : charP '"' r2 with
      | ok r3 c3 =>
        simp only [h3] at h
        cases h
        rw [charP_ok h1, escaped_str_ok h2, charP_ok h3]
      | err => simp only [h3] at h; cases h
      | fail => simp only [h3] at h; cases h
    | err => simp only [h2] at h; cases h
    | fail => simp only [h2] at h; cases h
  | err => simp only [h1] at h; cases h
  | fail => simp only [h1] at h; cases h

theorem string_without_space_ok {l r v : Str}
    (h : string_without_space l = .ok r v) :
    ∃ w, WS w ∧ v ≠ [] ∧ l = w ++ (v ++ r) := by
  simp only [string_without_space, precededP, multispace0] at h
  obtain ⟨h1, h2⟩ := is_notP_ok h
  refine ⟨l.takeWhile isSpaceChar, WS_takeWhile l, h2, ?_⟩
  conv_lhs => rw [space_split l]
  rw [h1]

theorem tag_value_ok {l r v : Str} (h : tag_value l = .ok r v) :
    ∃ w vr, WS w ∧ ValR v vr ∧ l = w ++ (vr ++ r) := by
  simp only [tag_value, alt2] at h
  cases h1 : string_without_space l with
  | ok r1 v1 =>
    rw [h1] at h
    cases h
    obtain ⟨w, hw, _, hl⟩ := string_without_space_ok h1
    exact ⟨w, v, hw, Or.inl rfl, hl⟩
  | err =>
    rw [h1] at h
    refine ⟨[], '"' :: v ++ ['"'], WS_nil, Or.inr rfl, ?_⟩
    have := string_quoted_ok h
    simpa using this
  | fail => rw [h1] at h; cases h

theorem preceded_ms0 (p : Parser α) (l : Str) :
    precededP multispace0 p l = p (l.dropWhile isSpaceChar) := rfl

theorem keypair_pair_ok {l r : Str} {k val : Str}
    (h : separated_pairP (precededP multispace0 tag_key)
      (precededP multispace0 (charP '='))
      (precededP multispace0 tag_value) l = .ok r (k, val)) :
    ∃ w1 w2 w3 vr, WS w1 ∧ WS w2 ∧ WS w3 ∧ ValR val vr ∧
      l = w1 ++ (k ++ (w2 ++ ('=' :: (w3 ++ (vr ++ r))))) := by
  simp only [separated_pairP, preceded_ms0] at h
  cases h1 : tag_key (l.dropWhile isSpaceChar) with
  | ok r1 k1 =>
    simp only [h1] at h
    cases h2 : charP '=' (r1.dropWhile isSpaceChar) with
    | ok r2 c2 =>
      simp only [h2] at h
      cases h3 : tag_value (r2.dropWhile isSpaceChar) with
      | ok r3 v3 =>
        simp only [h3, PResult.ok.injEq, Prod.mk.injEq] at h
        obtain ⟨hr, hk, hval⟩ := h
        subst hr hk hval
        obtain ⟨wk, hwk, _, hkk⟩ := string_without_space_ok h1
        have hcolon := charP_ok h2
        obtain ⟨wv, vr, hwv, hvr, htv⟩ := tag_value_ok h3
        refine ⟨l.takeWhile isSpaceChar ++ wk, r1.takeWhile isSpaceChar,
          r2.takeWhile isSpaceChar ++ wv, vr,
          WS_append (WS_takeWhile l) hwk, WS_takeWhile r1,
          WS_append (WS_takeWhile r2) hwv, hvr, ?_⟩
        conv_lhs => rw [space_split l, hkk, space_split r1, hcolon,
          space_split r2, htv]
        simp [List.append_assoc]
      | err => simp only [h3] at h; cases h
      | fail => simp only [h3] at h; cases h
    | err => simp only [h2] at h; cases h
    | fail => simp only [h2] at h; cases h
  | err => simp only [h1] at h; cases h
  | fail => simp only [h1] at h; cases h

theorem keypair_key_ok {l r k : Str}
    (h : precededP multispace0 tag_key l = .ok r k) :
    ∃ w1, WS w1 ∧ l = w1 ++ (k ++ r) := by
  rw [preceded_ms0] at h
  obtain ⟨w, hw, _, hkk⟩ := string_without_space_ok h
  refine ⟨l.takeWhile isSpaceChar ++ w, WS_append (WS_takeWhile l) hw, ?_⟩
  conv_lhs => rw [space_split l, hkk]
  simp [List.append_assoc]

theorem tag_head_keypair_ok {l r : Str} {k : Str} {v : Option Str}
    (h : tag_head_keypair l = .ok r (k, v)) :
    (∃ w1, v = none ∧ WS w1 ∧ l = w1 ++ (k ++ r)) ∨
    (∃ val w1 w2 w3 vr, v = some val ∧ WS w1 ∧ WS w2 ∧ WS w3 ∧
      ValR val vr ∧
      l = w1 ++ (k ++ (w2 ++ ('=' :: (w3 ++ (vr ++ r)))))) := by
  simp only [tag_head_keypair, alt2, pmap] at h
  cases h1 : separated_pairP (precededP multispace0 tag_key)
      (precededP multispace0 (charP '='))
      (precededP multispace0 tag_value) l with
  | ok r1 kv1 =>
    simp only [h1, PResult.ok.injEq, Prod.mk.injEq] at h
    obtain ⟨hr, hk, hv⟩ := h
    subst hr hk
    cases hv
    exact Or.inr (by
      obtain ⟨w1, w2, w3, vr, hw1, hw2, hw3, hvr, hl⟩ :=
        keypair_pair_ok (kv1.eta ▸ h1)
      exact ⟨kv1.2, w1, w2, w3, vr, rfl, hw1, hw2, hw3, hvr, hl⟩)
  | err =>
    simp only [h1] at h
    cases h2 : precededP multispace0 tag_key l with
    | ok r2 k2 =>
      simp only [h2, PResult.ok.injEq, Prod.mk.injEq] at h
      obtain ⟨hr, hk, hv⟩ := h
      subst hr hk
      exact Or.inl ⟨(keypair_key_ok h2).choose, hv.symm,
        (keypair_key_ok h2).choose_spec.1, (keypair_key_ok h2).choose_spec.2⟩
    | err => simp only [h2] at h; cases h
    | fail => simp only [h2] at h; cases h
  | fail => simp only [h1] at h; cases h

theorem tag_head_ok {l r : Str} {k : Str} {v : Option Str}
    (h : tag_head l = .ok r (k, v)) :
    ∃ hd, HeadR k v hd ∧ l = hd ++ r ∧ r.length < l.length := by
  simp only [tag_head, precededP, terminatedP, cutP, notP] at h
  cases h1 : charP '[' l with
  | ok r1 c1 =>
    simp only [h1] at h
    cases h2 : charP '/' r1 with
    | ok r2 c2 => simp only [h2] at h; cases h
    | err =>
      simp only [h2] at h
      cases h3 : tag_head_keypair r1 with
      | ok r3 kv3 =>
        simp only [h3] at h
        cases h4 : charP ']' (r3.dropWhile isSpaceChar) with
        | ok r4 c4 =>
          simp only [multispace0] at h
          simp only [h4, PResult.ok.injEq] at h
          obtain ⟨hr, hkv⟩ := h
          subst hr
          have h3' : tag_head_keypair r1 = .ok r3 (k, v) := by
            rw [h3, hkv]
          have hbra := charP_ok h1
          have hket := charP_ok h4
          rcases tag_head_keypair_ok h3' with
            ⟨w1, hv, hw1, hl1⟩ | ⟨val, w1, w2, w3, vr, hv, hw1, hw2, hw3, hvr, hl1⟩
          · subst hv
            refine ⟨'[' :: (w1 ++ k ++ (r3.takeWhile isSpaceChar) ++ [']']),
              ⟨w1, r3.takeWhile isSpaceChar, hw1, WS_takeWhile r3, rfl⟩, ?_, ?_⟩
            · rw [hbra, hl1]
              conv_lhs => rw [space_split r3, hket]
              simp [List.append_assoc]
            · rw [hbra, hl1, space_split r3, hket]
              simp only [List.length_append, List.length_cons]
              omega
          · subst hv
            refine ⟨'[' :: (w1 ++ k ++ w2 ++ '=' ::
                (w3 ++ vr ++ (r3.takeWhile isSpaceChar) ++ [']'])),
              ⟨w1, w2, w3, r3.takeWhile isSpaceChar, vr,
                hw1, hw2, hw3, WS_takeWhile r3, hvr, rfl⟩, ?_, ?_⟩
            · rw [hbra, hl1]
              conv_lhs => rw [space_split r3, hket]
              simp [List.append_assoc]
            · rw [hbra, hl1, space_split r3, hket]
              simp only [List.length_append, List.length_cons]
              omega
        | err => simp only [multispace0] at h; simp only [h4] at h; cases h
        | fail => simp only [multispace0] at h; simp only [h4] at h; cases h
      | err => simp only [h3] at h; cases h
      | fail => simp only [h3] at h; cases h
    | fail => simp only [h2] at h; cases h
  | err => simp only [h1] at h; cases h
  | fail => simp only [h1] at h; cases h

theorem tag_end_ok {l r name : Str} (h : tag_end l = .ok r name) :
    ∃ t, TailR name t ∧ l = t ++ r ∧ r.length < l.length := by
  simp only [tag_end, precededP, terminatedP, cutP] at h
  cases h1 : tagP ['[', '/'] l with
  | ok r1 s1 =>
    simp only [h1] at h
    cases h2 : tag_value r1 with
    | ok r2 v2 =>
      simp only [h2] at h
      cases h3 : charP ']' (r2.dropWhile isSpaceChar) with
      | ok r3 c3 =>
        simp only [multispace0] at h
        simp only [h3, PResult.ok.injEq] at h
        obtain ⟨hr, hname⟩ := h
        subst hr hname
        have hpre := tagP_ok h1
        obtain ⟨w, vr, hw, hvr, htv⟩ := tag_value_ok h2
        have hket := charP_ok h3
        refine ⟨'[' :: '/' :: (w ++ vr ++ (r2.takeWhile isSpaceChar) ++ [']']),
          ⟨w, r2.takeWhile isSpaceChar, vr, hw, WS_takeWhile r2, hvr, rfl⟩,
          ?_, ?_⟩
        · rw [hpre]
          conv_lhs => rw [htv, space_split r2, hket]
          simp [List.append_assoc]
        · rw [hpre, htv, space_split r2, hket]
          simp only [List.length_append, List.length_cons]
          omega
      | err => simp only [multispace0] at h; simp only [h3] at h; cases h
      | fail => simp only [multispace0] at h; simp only [h3] at h; cases h
    | err => simp only [h2] at h; cases h
    | fail => simp only [h2] at h; cases h
  | err => simp only [h1] at h; cases h
  | fail => simp only [h1] at h; cases h

theorem many0Go_renders {p : Parser Element}
    (hp : ∀ l r v, p l = .ok r v → ∃ s, l = s ++ r ∧ REl v s) :
    ∀ f l r es, many0Go p f l = .ok r es → ∃ s, l = s ++ r ∧ RList es s := by
  intro f
  induction f with
  | zero => intro l r es h; simp [many0Go] at h
  | succ f ih =>
    intro l r es h
    simp only [many0Go] at h
    cases h1 : p l with
    | ok r1 v1 =>
      simp only [h1] at h
      split at h
      · cases h
      · cases h2 : many0Go p f r1 with
        | ok r2 es2 =>
          simp only [h2] at h
          cases h
          obtain ⟨s1, hl1, he1⟩ := hp l r1 v1 h1
          obtain ⟨s2, hl2, he2⟩ := ih _ _ _ h2
          exact ⟨s1 ++ s2, by rw [hl1, hl2, List.append_assoc],
            RList.cons he1 he2⟩
        | err => simp only [h2] at h; cases h
        | fail => simp only [h2] at h; cases h
    | err =>
      simp only [h1] at h
      cases h
      exact ⟨[], rfl, RList.nil⟩
    | fail => simp only [h1] at h; cases h

theorem elementF_renders :
    ∀ n l r v, elementF n l = .ok r v → ∃ s, l = s ++ r ∧ REl v s := by
  intro n
  induction n with
  | zero => intro l r v h; simp [elementF] at h
  | succ n ih =>
    intro l r v h
    simp only [elementF, alt3, alt2] at h
    cases h1 : eofElem l with
    | ok r1 v1 =>
      simp only [h1] at h
      cases h
      simp only [eofElem, pmap] at h1
      cases h2 : eofP l with
      | ok r2 v2 =>
        simp only [h2] at h1
        cases h1
        obtain ⟨hl, hr⟩ := eofP_ok h2
        subst hr
        exact ⟨[], by simp [hl], REl.eof⟩
      | err => simp only [h2] at h1; cases h1
      | fail => simp only [h2] at h1; cases h1
    | fail => simp only [h1] at h; cases h
    | err =>
      simp only [h1] at h
      cases h2 : plain_text l with
      | ok r2 v2 =>
        simp only [h2] at h
        cases h
        simp only [plain_text, pmap] at h2
        cases h3 : escaped_str l with
        | ok r3 v3 =>
          simp only [h3] at h2
          cases h2
          exact ⟨v3, escaped_str_ok h3, REl.text v3⟩
        | err => simp only [h3] at h2; cases h2
        | fail => simp only [h3] at h2; cases h2
      | fail => simp only [h2] at h; cases h
      | err =>
        simp only [h2] at h
        simp only [blockP, closed_tagP, pmap, verifyP, tuple3P,
          elementsP] at h
        cases h3 : tag_head l with
        | ok l1 kv =>
          obtain ⟨k0, v0⟩ := kv
          simp only [h3] at h
          cases h4 : many0Go (elementF n) (l1.length + 1) l1 with
          | ok l2 inner =>
            simp only [h4] at h
            cases h5 : tag_end l2 with
            | ok l3 name =>
              simp only [h5, beq_iff_eq] at h
              by_cases hkv : k0 = name
              · subst hkv
                simp only [eq_self_iff_true, if_true, PResult.ok.injEq] at h
                obtain ⟨hr, hv⟩ := h
                subst hr
                subst hv
                obtain ⟨hd, hH, hl1, _⟩ := tag_head_ok h3
                obtain ⟨m, hlm, hR⟩ := many0Go_renders ih _ l1 l2 inner h4
                obtain ⟨t, hT, hl2, _⟩ := tag_end_ok h5
                refine ⟨hd ++ m ++ t, ?_, ?_⟩
                · rw [hl1, hlm, hl2]
                  simp [List.append_assoc]
                · exact REl.block hH hR hT
              · simp [hkv] at h
            | err => simp only [h5] at h; cases h
            | fail => simp only [h5] at h; cases h
          | err => simp only [h4] at h; cases h
          | fail => simp only [h4] at h; cases h
        | err => simp only [h3] at h; cases h
        | fail => simp only [h3] at h; cases h

theorem elementF_shrink {n : Nat} {l r : Str} {v : Element}
    (h : elementF n l = .ok r v) : r.length ≤ l.length := by
  obtain ⟨s, hl, _⟩ := elementF_renders n l r v h
  rw [hl]
  simp

theorem manyTillEof_renders {p : Parser Element}
    (hp : ∀ l r v, p l = .ok r v → ∃ s, l = s ++ r ∧ REl v s) :
    ∀ f l r es, manyTillEof p f l = .ok r es → r = [] ∧ RList es l := by
  intro f
  induction f with
  | zero => intro l r es h; simp [manyTillEof] at h
  | succ f ih =>
    intro l r es h
    simp only [manyTillEof] at h
    split at h
    · next hemp =>
      cases h
      have : l = [] := by simpa [List.isEmpty_iff] using hemp
      subst this
      exact ⟨rfl, RList.nil⟩
    · cases h1 : p l with
      | ok r1 v1 =>
        simp only [h1] at h
        split at h
        · cases h
        · cases h2 : manyTillEof p f r1 with
          | ok r2 es2 =>
            simp only [h2] at h
            cases h
            obtain ⟨hr2, hR⟩ := ih _ _ _ h2
            obtain ⟨s1, hl1, he1⟩ := hp l r1 v1 h1
            exact ⟨hr2, by rw [hl1]; exact RList.cons he1 hR⟩
          | err => simp only [h2] at h; cases h
          | fail => simp only [h2] at h; cases h
      | err => simp only [h1] at h; cases h
      | fail => simp only [h1] at h; cases h

theorem many0Go_eoffree {p : Parser Element}
    (hp : ∀ l r v, p l = .ok r v → r.length < l.length → EOFFreeEl v)
    (hs : ∀ l r v, p l = .ok r v → r.length ≤ l.length) :
    ∀ f l r es, many0Go p f l = .ok r es → EOFFreeList es := by
  intro f
  induction f with
  | zero => intro l r es h; simp [many0Go] at h
  | succ f ih =>
    intro l r es h
    simp only [many0Go] at h
    cases h1 : p l with
    | ok r1 v1 =>
      simp only [h1] at h
      split at h
      · cases h
      · next hne =>
        cases h2 : many0Go p f r1 with
        | ok r2 es2 =>
          simp only [h2] at h
          cases h
          exact EOFFreeList.cons
            (hp _ _ _ h1 (lt_of_le_of_ne (hs _ _ _ h1) hne))
            (ih _ _ _ h2)
        | err => simp only [h2] at h; cases h
        | fail => simp only [h2] at h; cases h
    | err =>
      simp only [h1] at h
      cases h
      exact EOFFreeList.nil
    | fail => simp only [h1] at h; cases h

theorem elementF_eoffree :
    ∀ n l r v, elementF n l = .ok r v → r.length < l.length →
      EOFFreeEl v := by
  intro n
  induction n with
  | zero => intro l r v h _; simp [elementF] at h
  | succ n ih =>
    intro l r v h hlt
    simp only [elementF, alt3, alt2] at h
    cases h1 : eofElem l with
    | ok r1 v1 =>
      simp only [h1] at h
      cases h
      simp only [eofElem, pmap] at h1
      cases h2 : eofP l with
      | ok r2 v2 =>
        simp only [h2] at h1
        cases h1
        obtain ⟨hl, hr⟩ := eofP_ok h2
        subst hl
        subst hr
        exact absurd hlt (by simp)
      | err => simp only [h2] at h1; cases h1
      | fail => simp only [h2] at h1; cases h1
    | fail => simp only [h1] at h; cases h
    | err =>
      simp only [h1] at h
      cases h2 : plain_text l with
      | ok r2 v2 =>
        simp only [h2] at h
        cases h
        simp only [plain_text, pmap] at h2
        cases h3 : escaped_str l with
        | ok r3 v3 =>
          simp only [h3] at h2
          cases h2
          exact EOFFreeEl.text v3
        | err => simp only [h3] at h2; cases h2
        | fail => simp only [h3] at h2; cases h2
      | fail => simp only [h2] at h; cases h
      | err =>
        simp only [h2] at h
        simp only [blockP, closed_tagP, pmap, verifyP, tuple3P,
          elementsP] at h
        cases h3 : tag_head l with
        | ok l1 kv =>
          obtain ⟨k0, v0⟩ := kv
          simp only [h3] at h
          cases h4 : many0Go (elementF n) (l1.length + 1) l1 with
          | ok l2 inner =>
            simp only [h4] at h
            cases h5 : tag_end l2 with
            | ok l3 name =>
              simp only [h5, beq_iff_eq] at h
              by_cases hkv : k0 = name
              · subst hkv
                simp only [eq_self_iff_true, if_true, PResult.ok.injEq] at h
                obtain ⟨hr, hv⟩ := h
                subst hr
                subst hv
                exact EOFFreeEl.block _ _ _
                  (many0Go_eoffree ih
                    (fun _ _ _ hh => elementF_shrink hh) _ _ _ _ h4)
              · simp [hkv] at h
            | err => simp only [h5] at h; cases h
            | fail => simp only [h5] at h; cases h
          | err => simp only [h4] at h; cases h
          | fail => simp only [h4] at h; cases h
        | err => simp only [h3] at h; cases h
        | fail => simp only [h3] at h; cases h

theorem manyTillEof_eoffree {p : Parser Element}
    (hp : ∀ l r v, p l = .ok r v → r.length < l.length → EOFFreeEl v)
    (hs : ∀ l r v, p l = .ok r v → r.length ≤ l.length) :
    ∀ f l r es, manyTillEof p f l = .ok r es → EOFFreeList es := by
  intro f
  induction f with
  | zero => intro l r es h; simp [manyTillEof] at h
  | succ f ih =>
    intro l r es h
    simp only [manyTillEof] at h
    split at h
    · cases h
      exact EOFFreeList.nil
    · cases h1 : p l with
      | ok r1 v1 =>
        simp only [h1] at h
        split at h
        · cases h
        · next hne =>
          cases h2 : manyTillEof p f r1 with
          | ok r2 es2 =>
            simp only [h2] at h
            cases h
            exact EOFFreeList.cons
              (hp _ _ _ h1 (lt_of_le_of_ne (hs _ _ _ h1) hne))
              (ih _ _ _ h2)
          | err => simp only [h2] at h; cases h
          | fail => simp only [h2] at h; cases h
      | err => simp only [h1] at h; cases h
      | fail => simp only [h1] at h; cases h

theorem many0Go_congr {p q : Parser Element} {L : Nat}
    (hpq : ∀ ll, ll.length ≤ L → p ll = q ll)
    (hs : ∀ ll r v, p ll = .ok r v → r.length ≤ ll.length) :
    ∀ f l, l.length ≤ L → many0Go p f l = many0Go q f l := by
  intro f
  induction f with
  | zero => intro l _; rfl
  | succ f ih =>
    intro l hl
    simp only [many0Go]
    rw [← hpq l hl]
    cases h1 : p l with
    | ok r1 v1 =>
      simp only [h1]
      by_cases hne : r1.length = l.length
      · simp [hne]
      · rw [ih r1 (le_trans (hs _ _ _ h1) hl)]
    | err => simp only [h1]
    | fail => simp only [h1]

theorem elementF_mono :
    ∀ n m l, l.length < n → l.length < m → elementF n l = elementF m l := by
  intro n
  induction n with
  | zero => intro m l h _; exact absurd h (Nat.not_lt_zero _)
  | succ n ih =>
    intro m l hn hm
    cases m with
    | zero => exact absurd hm (Nat.not_lt_zero _)
    | succ m =>
      simp only [elementF, alt3, alt2]
      cases h1 : eofElem l with
      | ok r v => simp only [h1]
      | fail => simp only [h1]
      | err =>
        simp only [h1]
        cases h2 : plain_text l with
        | ok r v => simp only [h2]
        | fail => simp only [h2]
        | err =>
          simp only [h2]
          simp only [blockP, closed_tagP, pmap, verifyP, tuple3P,
            elementsP]
          cases h3 : tag_head l with
          | ok l1 kv =>
            obtain ⟨k0, v0⟩ := kv
            simp only [h3]
            obtain ⟨hd, _, _, hlt⟩ := tag_head_ok h3
            rw [many0Go_congr
              (fun ll hll => ih m ll (by omega) (by omega))
              (fun _ _ _ hh => elementF_shrink hh) _ l1 (le_refl _)]
          | err => simp only [h3]
          | fail => simp only [h3]

theorem eofElem_cons {c : Char} {t : Str} : eofElem (c :: t) = .err := by
  simp [eofElem, pmap, eofP]

theorem plain_text_bracket {t : Str} : plain_text ('[' :: t) = .err := by
  have hes : escaped_str ('[' :: t) = .err := by
    simp only [escaped_str]
    rw [escapedCount_special_start (by decide) (by decide)]
  simp [plain_text, pmap, hes]

theorem element_err_parse_err {c : Char} {t : Str}
    (h : elementF ((c :: t).length + 1) (c :: t) = .err) :
    parse (c :: t) = .err := by
  simp only [parse, List.length_cons] at h ⊢
  simp only [manyTillEof]
  simp [h]

theorem element_fail_parse_fail {c : Char} {t : Str}
    (h : elementF ((c :: t).length + 1) (c :: t) = .fail) :
    parse (c :: t) = .fail := by
  simp only [parse, List.length_cons] at h ⊢
  simp only [manyTillEof]
  simp [h]

theorem closed_tagP_mismatch {N : Nat} {l m e r : Str} {k : Str}
    {v : Option Str} {inner : List Element} {name : Str}
    (hN : m.length < N)
    (h1 : tag_head l = .ok m (k, v))
    (h2 : many0Go (elementF (m.length + 1)) (m.length + 1) m = .ok e inner)
    (h3 : tag_end e = .ok r name)
    (h4 : name ≠ k) :
    closed_tagP (elementF N) l = .err := by
  have hmono : many0Go (elementF N) (m.length + 1) m
      = many0Go (elementF (m.length + 1)) (m.length + 1) m :=
    many0Go_congr
      (fun ll hll => elementF_mono N (m.length + 1) ll (by omega) (by omega))
      (fun _ _ _ hh => elementF_shrink hh) _ m (le_refl _)
  simp only [closed_tagP, pmap, verifyP, tuple3P, elementsP]
  simp only [h1]
  rw [hmono]
  simp only [h2, h3, beq_iff_eq]
  rw [if_neg (Ne.symm h4)]

/-- C2: whenever a tag head, recursively parsed inner elements and a tag
tail all succeed in sequence but the whitespace-trimmed closing name
differs from the opening key, the closed-tag rule softly errors (it
succeeds only when the two names are equal byte-for-byte) and the whole
parse of that input errors, returning no element sequence. -/
theorem claim_C2 {l m e r : Str} {k : Str} {v : Option Str}
    {inner : List Element} {name : Str}
    (h1 : tag_head l = .ok m (k, v))
    (h2 : elements m = .ok e inner)
    (h3 : tag_end e = .ok r name)
    (h4 : name ≠ k) :
    closed_tag l = .err ∧ parse l = .err := by
  obtain ⟨hd, hH, hl, hlt⟩ := tag_head_ok h1
  have h2' : many0Go (elementF (m.length + 1)) (m.length + 1) m
      = .ok e inner := by simpa [elements, elementsP] using h2
  have hclosed : ∀ N, m.length < N → closed_tagP (elementF N) l = .err :=
    fun N hN => closed_tagP_mismatch hN h1 h2' h3 h4
  have hlcons : ∃ t, l = '[' :: t := by
    rcases v with _ | val
    · obtain ⟨w1, w2, _, _, hhd⟩ := hH
      exact ⟨_, by rw [hl, hhd]; rfl⟩
    · obtain ⟨w1, w2, w3, w4, vr, _, _, _, _, _, hhd⟩ := hH
      exact ⟨_, by rw [hl, hhd]; rfl⟩
  obtain ⟨t, hlc⟩ := hlcons
  have helem : elementF (l.length + 1) l = .err := by
    have h5 : eofElem l = .err := by rw [hlc]; exact eofElem_cons
    have h6 : plain_text l = .err := by rw [hlc]; exact plain_text_bracket
    simp only [elementF, alt3, alt2]
    simp [h5, h6, blockP, pmap, hclosed l.length hlt]
  refine ⟨?_, ?_⟩
  · simp only [closed_tag]
    exact hclosed (l.length + 1) (by omega)
  · rw [hlc] at helem ⊢
    exact element_err_parse_err helem

/-- Witness for C2 at the input [foo]x[/bar]. -/
theorem claim_C2_witness :
    closed_tag "[foo]x[/bar]".toList = .err ∧
    parse "[foo]x[/bar]".toList = .err :=
  @claim_C2 "[foo]x[/bar]".toList "x[/bar]".toList "[/bar]".toList []
    "foo".toList none [.Text ['x']] "bar".toList rfl rfl rfl (by decide)

theorem precededP_ok {p : Parser α} {q : Parser β} {l r : Str} {v : α}
    (h : p l = .ok r v) : precededP p q l = q r := by
  simp [precededP, h]

/-- C4: at a position holding a bracket not immediately followed by a
slash, if the tag head cannot be completed then the element rule fails
fatally — the malformed head is not consumed as plain text and no other
alternative of the element rule is tried — and the whole parse of that
input fails fatally. -/
theorem claim_C4 {t : Str}
    (h2 : ∀ u, t ≠ '/' :: u)
    (h3 : ∀ r kv, tag_head ('[' :: t) ≠ .ok r kv) :
    element ('[' :: t) = .fail ∧ parse ('[' :: t) = .fail := by
  have hc : charP '[' ('[' :: t) = .ok t '[' := by simp [charP]
  have hn : charP '/' t = .err := by
    cases t with
    | nil => rfl
    | cons d u =>
      simp only [charP]
      rw [if_neg]
      intro hd
      exact h2 u (by rw [hd])
  have hA : terminatedP (charP '[') (notP (charP '/')) ('[' :: t)
      = .ok t '[' := by
    simp [terminatedP, notP, hc, hn]
  have hstep : tag_head ('[' :: t)
      = cutP (terminatedP tag_head_keypair
          (precededP multispace0 (charP ']'))) t := by
    simp only [tag_head]
    exact precededP_ok hA
  have hhead : tag_head ('[' :: t) = .fail := by
    rw [hstep]
    cases hX : terminatedP tag_head_keypair
        (precededP multispace0 (charP ']')) t with
    | ok rx vx =>
      refine absurd ?_ (h3 rx vx)
      rw [hstep]
      simp [cutP, hX]
    | err => simp [cutP, hX]
    | fail => simp [cutP, hX]
  have helem : element ('[' :: t) = .fail := by
    simp only [element, elementF, alt3, alt2]
    simp [eofElem_cons, plain_text_bracket, blockP, closed_tagP, pmap,
      verifyP, tuple3P, hhead]
  exact ⟨helem, element_fail_parse_fail (by
    simpa only [element, List.length_cons] using helem)⟩

/-- Witness for C4 at the input [foo. -/
theorem claim_C4_witness :
    element ('[' :: "foo".toList) = .fail ∧
    parse ('[' :: "foo".toList) = .fail :=
  claim_C4 (fun u h => by simp at h)
    (fun r kv h => by
      rw [show tag_head ('[' :: "foo".toList) = .fail from rfl] at h
      cases h)

theorem PlainTok_esc_nil : PlainTok ['\\'] = false := rfl

theorem PlainTok_esc (d : Char) (rest2 : Str) :
    PlainTok ('\\' :: d :: rest2)
      = (decide (d ∈ escapableChars) && PlainTok rest2) := by
  conv_lhs => unfold PlainTok
  simp

theorem PlainTok_nonesc {c : Char} (hc : c ≠ '\\') (rest : Str) :
    PlainTok (c :: rest)
      = (decide (c ∉ escapedChars) && PlainTok rest) := by
  conv_lhs => unfold PlainTok
  simp [hc]

theorem escapedCount_plain :
    ∀ (n : Nat) (l : Str), l.length ≤ n → PlainTok l = true →
      ∀ b, escapedCount b l = some l.length := by
  intro n
  induction n with
  | zero =>
    intro l hl _ b
    cases l with
    | nil => rfl
    | cons c rest => simp at hl
  | succ n ih =>
    intro l hl hp b
    cases l with
    | nil => rfl
    | cons c rest =>
      by_cases hc : c = '\\'
      · subst hc
        cases rest with
        | nil => rw [PlainTok_esc_nil] at hp; cases hp
        | cons d rest2 =>
          rw [PlainTok_esc] at hp
          simp only [Bool.and_eq_true, decide_eq_true_eq] at hp
          obtain ⟨hd, hp2⟩ := hp
          rw [escapedCount_esc hd b rest2,
            ih rest2 (by simp at hl ⊢; omega) hp2 false]
          simp
      · rw [PlainTok_nonesc hc] at hp
        simp only [Bool.and_eq_true, decide_eq_true_eq] at hp
        obtain ⟨hc2, hp2⟩ := hp
        rw [escapedCount_normal hc2 b rest,
          ih rest (by simp at hl ⊢; omega) hp2 false]
        simp

/-- C5: every nonempty plain text with no unescaped special character —
a run of the text-escaping lexicon, in which escape sequences such as
backslash-n or backslash-bracket may appear — parses to exactly one Text
element whose span is the whole input, kept verbatim (escapes are not
unescaped). -/
theorem claim_C5 {l : Str} (hne : l ≠ []) (hp : PlainTok l = true) :
    parse l = .ok [] [.Text l] := by
  have hes : escaped_str l = .ok [] l := by
    simp only [escaped_str]
    rw [escapedCount_plain l.length l (le_refl _) hp true]
    simp
  cases l with
  | nil => exact absurd rfl hne
  | cons c t =>
    have helem : elementF ((c :: t).length + 1) (c :: t)
        = .ok [] (.Text (c :: t)) := by
      simp only [elementF, List.length_cons, alt3, alt2]
      rw [eofElem_cons]
      simp [plain_text, pmap, hes]
    have hrec : manyTillEof (elementF ((c :: t).length + 1))
        (t.length + 1) ([] : Str) = .ok [] ([] : List Element) := by
      simp [manyTillEof]
    simp only [parse, List.length_cons] at helem hrec ⊢
    simp only [manyTillEof]
    simp [helem, hrec]

/-- Witness for C5 at the input a backslash n b. -/
theorem claim_C5_witness :
    parse "a\\nb".toList = .ok [] [.Text "a\\nb".toList] :=
  claim_C5 (by simp) (by decide)

/-- C9: for every input on which the parse entry point succeeds, the
returned element sequence, including recursively the children of every
block in it, contains no EOF (end-of-input sentinel) element. -/
theorem claim_C9 {l r : Str} {es : List Element}
    (h : parse l = .ok r es) : EOFFreeList es := by
  simp only [parse] at h
  exact manyTillEof_eoffree (elementF_eoffree _)
    (fun _ _ _ hh => elementF_shrink hh) _ _ _ _ h

/-- Witness for C9 at the one-character input q. -/
theorem claim_C9_witness : EOFFreeList [Element.Text ['q']] :=
  @claim_C9 ['q'] [] [Element.Text ['q']] rfl

/-- C6 (amended): for every input on which the parse entry point
succeeds, nothing remains unconsumed and the input is exactly the
concatenation, in source order, of the tree's Text spans together with,
around each Block, the tag syntax actually consumed: an opening head
`[tag]`, `[tag=value]` or `[tag="value"]` with optional whitespace
around the name, `=`, value and `]` tokens, and a closing `[/tag]` tail
whose name may itself be quoted and carry surrounding whitespace. -/
theorem claim_C6_amended {l r : Str} {es : List Element}
    (h : parse l = .ok r es) : r = [] ∧ RList es l := by
  simp only [parse] at h
  exact manyTillEof_renders (elementF_renders (l.length + 1)) _ l r es h

/-- Witness for the amended C6 at the one-character input x. -/
theorem claim_C6_amended_witness :
    ([] : Str) = [] ∧ RList [Element.Text ['x']] ['x'] :=
  @claim_C6_amended ['x'] [] [Element.Text ['x']] rfl

/-- C6 counterexample: on the input `[ foo]a[/foo]` the parse succeeds,
but no concatenation of the tree's text spans with strict `[tag]`,
`[tag=value]` or `[tag="value"]` heads and `[/tag]` tails reproduces the
input — the whitespace consumed inside the tag head is discarded. -/
theorem claim_C6_counterexample :
    parse "[ foo]a[/foo]".toList =
      .ok [] [.Block "foo".toList none [.Text "a".toList]] ∧
    ¬ SRList [.Block "foo".toList none [.Text "a".toList]]
        "[ foo]a[/foo]".toList := by
  refine ⟨rfl, fun h => ?_⟩
  obtain ⟨a, b, hel, hnil, hs⟩ := SRList_cons_inv h
  obtain ⟨c, m, hh, hm, ha⟩ := SREl_block_inv hel
  obtain ⟨a2, b2, ht, hnil2, hm2⟩ := SRList_cons_inv hm
  have hb : b = [] := SRList_nil_inv hnil
  have hb2 : b2 = [] := SRList_nil_inv hnil2
  have ha2 : a2 = "a".toList := SREl_text_inv ht
  have hc : c = '[' :: ("foo".toList ++ [']']) := hh
  subst hb hb2 ha2 hc hm2 ha
  simp only [List.append_nil] at hs
  exact absurd hs (by decide)

end Huozi
